import Mathlib

deriving instance DecidableEq for Except

/-!
# Verification of the keyring-vcm chunked AEAD codec

A shallow embedding of the keyring-vcm repository (a chunked
authenticated-encryption codec for large binary objects) together with
proofs about its key derivation, associated-data construction, frame
codec, streaming framer, envelope parsing, and input validation.

Bytes are modelled as `Nat` values below 256 held in `List Nat`; the
external Node `crypto` primitives used by the source are embedded as
executable Lean functions: SHA-256 and HMAC-SHA-256 are implemented in
full, while the AES-256-GCM AEAD (an external primitive the source
treats as a black box) is abstracted as a structure bundling a
seal/open pair with the standard properties the source relies on.
-/

namespace KeyringVcm

/-! ## Byte and word utilities -/

/-- Big-endian 4-byte encoding of a 32-bit value, as written by
`Buffer.writeUInt32BE`. -/
def uint32be (n : Nat) : List Nat :=
  [n / 16777216 % 256, n / 65536 % 256, n / 256 % 256, n % 256]

/-- Big-endian read of the first four bytes, as `Buffer.readUInt32BE(0)`. -/
def readUInt32BE (b : List Nat) : Nat :=
  b.getD 0 0 * 16777216 + b.getD 1 0 * 65536 + b.getD 2 0 * 256 + b.getD 3 0

/-- Big-endian 8-byte encoding of a 64-bit value (SHA-256 length field). -/
def u64be (n : Nat) : List Nat :=
  [n / 72057594037927936 % 256, n / 281474976710656 % 256,
   n / 1099511627776 % 256, n / 4294967296 % 256,
   n / 16777216 % 256, n / 65536 % 256, n / 256 % 256, n % 256]

/-- UTF-8 encoding of a single character (standard 1-4 byte form). -/
def utf8EncodeChar (c : Char) : List Nat :=
  let n := c.toNat
  if n < 128 then [n]
  else if n < 2048 then [192 ||| (n >>> 6), 128 ||| (n &&& 63)]
  else if n < 65536 then
    [224 ||| (n >>> 12), 128 ||| ((n >>> 6) &&& 63), 128 ||| (n &&& 63)]
  else
    [240 ||| (n >>> 18), 128 ||| ((n >>> 12) &&& 63),
     128 ||| ((n >>> 6) &&& 63), 128 ||| (n &&& 63)]

/-- UTF-8 bytes of a string, as produced by `Buffer.from(s, 'utf8')`. -/
def utf8Bytes (s : String) : List Nat :=
  s.data.foldr (fun c acc => utf8EncodeChar c ++ acc) []

/-! ## SHA-256

A complete executable implementation of FIPS 180-4 SHA-256, embedding
the Node `crypto.createHash('sha256')` primitive. 32-bit words are
`Nat` values reduced modulo `2 ^ 32`. -/

def add32 (a b : Nat) : Nat := (a + b) % 4294967296

def rotr32 (x n : Nat) : Nat := ((x >>> n) ||| (x <<< (32 - n))) % 4294967296

def bigSigma0 (x : Nat) : Nat := rotr32 x 2 ^^^ rotr32 x 13 ^^^ rotr32 x 22

def bigSigma1 (x : Nat) : Nat := rotr32 x 6 ^^^ rotr32 x 11 ^^^ rotr32 x 25

def smallSigma0 (x : Nat) : Nat := rotr32 x 7 ^^^ rotr32 x 18 ^^^ (x >>> 3)

def smallSigma1 (x : Nat) : Nat := rotr32 x 17 ^^^ rotr32 x 19 ^^^ (x >>> 10)

def chFn (x y z : Nat) : Nat := (x &&& y) ^^^ ((x ^^^ 4294967295) &&& z)

def majFn (x y z : Nat) : Nat := (x &&& y) ^^^ (x &&& z) ^^^ (y &&& z)

/-- The 64 SHA-256 round constants. -/
def sha256K : List Nat :=
  [1116352408, 1899447441, 3049323471, 3921009573,
   961987163, 1508970993, 2453635748, 2870763221,
   3624381080, 310598401, 607225278, 1426881987,
   1925078388, 2162078206, 2614888103, 3248222580,
   3835390401, 4022224774, 264347078, 604807628,
   770255983, 1249150122, 1555081692, 1996064986,
   2554220882, 2821834349, 2952996808, 3210313671,
   3336571891, 3584528711, 113926993, 338241895,
   666307205, 773529912, 1294757372, 1396182291,
   1695183700, 1986661051, 2177026350, 2456956037,
   2730485921, 2820302411, 3259730800, 3345764771,
   3516065817, 3600352804, 4094571909, 275423344,
   430227734, 506948616, 659060556, 883997877,
   958139571, 1322822218, 1537002063, 1747873779,
   1955562222, 2024104815, 2227730452, 2361852424,
   2428436474, 2756734187, 3204031479, 3329325298]

/-- The SHA-256 initial hash value. -/
def sha256H0 : List Nat :=
  [1779033703, 3144134277, 1013904242, 2773480762,
   1359893119, 2600822924, 528734635, 1541459225]

/-- Pack bytes into big-endian 32-bit words, four bytes per word. -/
def bytesToWords : List Nat → List Nat
  | a :: b :: c :: d :: rest => (((a * 256 + b) * 256 + c) * 256 + d) :: bytesToWords rest
  | _ => []

/-- One step of the SHA-256 message-schedule extension. -/
def scheduleStep (w : List Nat) : Nat :=
  let n := w.length
  add32 (add32 (smallSigma1 (w.getD (n - 2) 0)) (w.getD (n - 7) 0))
        (add32 (smallSigma0 (w.getD (n - 15) 0)) (w.getD (n - 16) 0))

/-- Extend 16 message words to the 64-entry schedule. -/
def schedule (ws : List Nat) : List Nat :=
  (List.range 48).foldl (fun acc _ => acc ++ [scheduleStep acc]) ws

/-- One SHA-256 round applied to the working state `[a,b,c,d,e,f,g,h]`. -/
def sha256Round (st : List Nat) (wk : Nat × Nat) : List Nat :=
  let a := st.getD 0 0
  let b := st.getD 1 0
  let c := st.getD 2 0
  let d := st.getD 3 0
  let e := st.getD 4 0
  let f := st.getD 5 0
  let g := st.getD 6 0
  let h := st.getD 7 0
  let t1 := add32 (add32 (add32 h (bigSigma1 e)) (chFn e f g)) (add32 wk.2 wk.1)
  let t2 := add32 (bigSigma0 a) (majFn a b c)
  [add32 t1 t2, a, b, c, add32 d t1, e, f, g]

/-- The SHA-256 compression function on one 64-byte block. -/
def sha256Compress (h : List Nat) (block : List Nat) : List Nat :=
  let w := schedule (bytesToWords block)
  let final := (w.zip sha256K).foldl sha256Round h
  List.zipWith add32 h final

/-- SHA-256 padding: append `0x80`, zeros, then the 64-bit bit length. -/
def sha256Pad (m : List Nat) : List Nat :=
  m ++ 128 :: List.replicate ((55 + 64 - m.length % 64) % 64) 0 ++ u64be (8 * m.length)

/-- Split a list into blocks of `n` elements; `fuel` bounds the iteration
count (the callers pass the list length, which always suffices). -/
def chunksOf (n : Nat) : Nat → List α → List (List α)
  | 0, _ => []
  | _, [] => []
  | fuel + 1, l => l.take n :: chunksOf n fuel (l.drop n)

/-- Full SHA-256 digest (32 bytes) of a byte sequence. -/
def sha256 (m : List Nat) : List Nat :=
  ((chunksOf 64 (sha256Pad m).length (sha256Pad m)).foldl sha256Compress
    sha256H0).foldr (fun w acc => uint32be w ++ acc) []

/-- HMAC-SHA-256 with a 64-byte block size, embedding
`crypto.createHmac('sha256', key).update(msg).digest()`. -/
def hmacSha256 (key msg : List Nat) : List Nat :=
  let k1 := if 64 < key.length then sha256 key else key
  let k0 := k1 ++ List.replicate (64 - k1.length) 0
  sha256 ((k0.map (fun b => b ^^^ 92)) ++ sha256 ((k0.map (fun b => b ^^^ 54)) ++ msg))

/-! ## Errors

The source throws `ValidationError(message, field)`, `SecurityError(message,
code)` and plain `Error(message)` objects.  The model keeps the structural
payload (field / code / chunk index) and elides the human-readable message
except where a plain `Error` carries nothing else. -/

/-- Error taxonomy of the source (`src/utils/security.js` and plain
`Error` throws). -/
inductive JsError where
  /-- `ValidationError`, carrying its `field`. -/
  | validation (field : String)
  /-- `SecurityError`, carrying its `code`. -/
  | security (code : String)
  /-- `Falha na autenticação do chunk <index>` from `decryptChunk`. -/
  | auth (chunkIndex : Nat)
  /-- A plain `new Error(message)`. -/
  | msg (text : String)
  /-- `Buffer contém <n> bytes não processados` from the length-prefixed
  deserialization stream's `_flush`. -/
  | unprocessed (count : Nat)
deriving DecidableEq, Repr

/-! ## Input validation (`src/utils/security.js`) -/

/-- `SECURITY_LIMITS.MAX_VIDEO_ID_LENGTH`. -/
def MAX_VIDEO_ID_LENGTH : Nat := 255

/-- `SECURITY_LIMITS.MAX_CHUNK_SIZE` (10 MB). -/
def MAX_CHUNK_SIZE : Nat := 10485760

/-- `SECURITY_LIMITS.MIN_CHUNK_SIZE` (1 KB). -/
def MIN_CHUNK_SIZE : Nat := 1024

/-- `SECURITY_LIMITS.MAX_CHUNKS_PER_VIDEO`. -/
def MAX_CHUNKS_PER_VIDEO : Nat := 100000

/-- `validateMasterKey`: exactly 32 bytes, not all zero, at least 16
distinct byte values.  The Buffer/null type guards of the source are
outside the byte-list model. -/
def validateMasterKey (k : List Nat) : Except JsError Unit :=
  if k.length ≠ 32 then .error (.validation "masterKey")
  else if k.all (· = 0) then .error (.security "WEAK_KEY")
  else if k.dedup.length < 16 then .error (.security "WEAK_KEY")
  else .ok ()

/-- The character class of `SECURITY_LIMITS.VIDEO_ID_PATTERN`,
`/^[a-zA-Z0-9\-_:.]+$/`. -/
def allowedIdChar (c : Char) : Bool :=
  c.isAlpha || c.isDigit || c = '-' || c = '_' || c = ':' || c = '.'

/-- `validateVideoId`: non-empty, at most 255 characters, all characters
in the allowed class.  JavaScript measures `videoId.length` in UTF-16
code units; the model uses code points, which agree on every string whose
characters lie in the (ASCII) allowed class, and both sides reject any
string containing a character outside it. -/
def validateVideoId (s : String) : Except JsError Unit :=
  if s = "" then .error (.validation "videoId")
  else if s.length < 1 then .error (.validation "videoId")
  else if MAX_VIDEO_ID_LENGTH < s.length then .error (.validation "videoId")
  else if ¬ s.data.all allowedIdChar then .error (.validation "videoId")
  else .ok ()

/-- `validateChunkSize`: integer in `[1024, 10·2^20]`. -/
def validateChunkSize (n : Nat) : Except JsError Unit :=
  if n < MIN_CHUNK_SIZE then .error (.validation "chunkSize")
  else if MAX_CHUNK_SIZE < n then .error (.validation "chunkSize")
  else .ok ()

/-- `validateChunkIndex`: fits in 32 bits and respects the per-object
frame cap (the negativity check is vacuous over `Nat`). -/
def validateChunkIndex (i : Nat) : Except JsError Unit :=
  if 4294967295 < i then .error (.validation "chunkIndex")
  else if MAX_CHUNKS_PER_VIDEO < i then .error (.security "TOO_MANY_CHUNKS")
  else .ok ()

/-- `validateBuffer`: present and non-empty. -/
def validateBuffer (b : List Nat) (field : String) : Except JsError Unit :=
  if b = [] then .error (.validation field) else .ok ()

/-! ## Associated data (`src/utils/aad.js`) -/

/-- `createAAD(videoId, chunkIndex)`: SHA-256 of the UTF-8 object id
followed by the big-endian 32-bit index. -/
def createAAD (videoId : String) (chunkIndex : Nat) : Except JsError (List Nat) :=
  if videoId = "" then .error (.msg "videoId deve ser uma string nao vazia")
  else if 4294967295 < chunkIndex then .error (.msg "chunkIndex deve ser uint32")
  else .ok (sha256 (utf8Bytes videoId ++ uint32be chunkIndex))

/-- Modelled from the spec: `aad(object_id, index) =
SHA-256(object_id_utf8 || uint32_be(index))`, the formula of §4.3,
stated independently of the source for comparison. -/
def specAAD (objectId : String) (index : Nat) : List Nat :=
  sha256 (utf8Bytes objectId ++ uint32be index)

/-! ## Key hierarchy (`src/utils/hkdf.js`) -/

/-- `CONFIG.HKDF.INFO` as UTF-8 bytes. -/
def hkdfInfo : List Nat := utf8Bytes "@kitsuneislife/keyring-vcm-v1"

/-- `deriveVideoKey(masterKey, videoId)`: validate, then HKDF-SHA-256
with salt `SHA-256(videoId)`, HKDF-Extract, and one Expand round whose
output is truncated to `CONFIG.CRYPTO.KEY_LENGTH = 32` bytes. -/
def deriveVideoKey (masterKey : List Nat) (videoId : String) :
    Except JsError (List Nat) := do
  validateMasterKey masterKey
  validateVideoId videoId
  let salt := sha256 (utf8Bytes videoId)
  let prk := hmacSha256 salt masterKey
  .ok ((hmacSha256 prk (hkdfInfo ++ [1])).take 32)

/-- Modelled from the spec: the subkey formula of §4.2 — the first 32
bytes of `HMAC-SHA-256(prk, INFO || 0x01)` with
`prk = HMAC-SHA-256(SHA-256(object_id_utf8), master)` — stated
independently of the source for comparison. -/
def specSubkey (master : List Nat) (objectId : String) : List Nat :=
  (hmacSha256 (hmacSha256 (sha256 (utf8Bytes objectId)) master)
    (utf8Bytes "@kitsuneislife/keyring-vcm-v1" ++ [1])).take 32

/-- `hexVal` of a hex digit character (`0-9a-fA-F`). -/
def hexVal (c : Char) : Nat :=
  if c.isDigit then c.toNat - 48
  else if 'a' ≤ c then c.toNat - 87
  else c.toNat - 55

/-- Hex-digit test matching the character class of `/^[0-9a-fA-F]+$/`. -/
def isHexDigit (c : Char) : Bool :=
  c.isDigit || ('a' ≤ c && c ≤ 'f') || ('A' ≤ c && c ≤ 'F')

/-- Node `Buffer.from(s, 'hex')` on an all-hex-digit string: decode byte
pairs; a trailing lone digit is silently dropped. -/
def hexDecode : List Char → List Nat
  | a :: b :: rest => (16 * hexVal a + hexVal b) :: hexDecode rest
  | _ => []

/-- `importMasterKey(hexKey)`: reject empty or non-hex strings, decode,
then validate the decoded key as a master key. -/
def importMasterKey (hexKey : String) : Except JsError (List Nat) :=
  if hexKey = "" then .error (.msg "Hex key deve ser uma string nao vazia")
  else if ¬ hexKey.data.all isHexDigit then
    .error (.msg "Hex key contem caracteres invalidos")
  else do
    let key := hexDecode hexKey.data
    validateMasterKey key
    .ok key

/-! ## The AEAD primitive

The source encrypts with Node's `crypto.createCipheriv('aes-256-gcm', …)`
and decrypts with `createDecipheriv`, both external to the repository.
They are embedded as a structure bundling a seal/open pair with the three
properties of AES-GCM that the repository's code relies on: ciphertext
has the plaintext's length, tags are 16 bytes, and opening a sealed
frame with the same key, nonce and AAD returns the plaintext. -/

/-- An AEAD primitive: `aead_seal key nonce aad plaintext =
(ciphertext, tag)` and `aead_open key nonce aad ciphertext tag`,
following the interface names of the primitive adapter. -/
structure Aead where
  aead_seal : List Nat → List Nat → List Nat → List Nat → List Nat × List Nat
  aead_open : List Nat → List Nat → List Nat → List Nat → List Nat → Option (List Nat)
  ct_length : ∀ k n a p, (aead_seal k n a p).1.length = p.length
  tag_length : ∀ k n a p, (aead_seal k n a p).2.length = 16
  open_seal : ∀ k n a p,
    aead_open k n a (aead_seal k n a p).1 (aead_seal k n a p).2 = some p

/-- A 16-byte tag binding key, nonce, AAD and message through SHA-256
(zero-padded so the length is 16 by construction). -/
def hashTag (k n a c : List Nat) : List Nat :=
  let t := (sha256 (k ++ n ++ a ++ c)).take 16
  t ++ List.replicate (16 - t.length) 0

/-- A concrete `Aead` instance used to evaluate the pipeline on concrete
inputs: the ciphertext is the plaintext and the tag is a truncated
SHA-256 of key, nonce, AAD and message, so opening genuinely checks the
binding of all four. -/
def hashTagAead : Aead where
  aead_seal k n a p := (p, hashTag k n a p)
  aead_open k n a c t := if t = hashTag k n a c then some c else none
  ct_length := fun _ _ _ _ => rfl
  tag_length := by
    intro k n a p
    simp only [hashTag, List.length_append, List.length_take, List.length_replicate]
    omega
  open_seal := by
    intro k n a p
    simp

/-- A degenerate `Aead` instance (identity ciphertext, constant tag)
used where a concrete evaluation only exercises the framing around the
primitive. -/
def plainAead : Aead where
  aead_seal _ _ _ p := (p, List.replicate 16 0)
  aead_open _ _ _ c t := if t = List.replicate 16 0 then some c else none
  ct_length := fun _ _ _ _ => rfl
  tag_length := fun _ _ _ _ => by simp
  open_seal := fun _ _ _ _ => by simp

/-! ## Frame codec (`src/core/chunk-crypto.js`) -/

/-- `CONFIG.HEADER.TOTAL_SIZE` (4-byte index + 12-byte IV + 16-byte tag). -/
def HEADER_TOTAL_SIZE : Nat := 32

/-- `CONFIG.CHUNK_SIZE`, the default frame size (512 KB). -/
def CHUNK_SIZE : Nat := 524288

/-- The `EncryptedChunk` record: frame index, IV (nonce), auth tag, and
ciphertext. -/
structure EncryptedChunk where
  index : Nat
  iv : List Nat
  tag : List Nat
  ciphertext : List Nat
deriving DecidableEq, Repr

/-- `EncryptedChunk.toBuffer`: 4-byte big-endian index, then IV, tag and
ciphertext. -/
def EncryptedChunk.toBuffer (c : EncryptedChunk) : List Nat :=
  uint32be c.index ++ c.iv ++ c.tag ++ c.ciphertext

/-- `EncryptedChunk.fromBuffer`: reject buffers shorter than the 32-byte
header, then read the index and slice IV, tag and ciphertext. -/
def EncryptedChunk.fromBuffer (b : List Nat) : Except JsError EncryptedChunk :=
  if b.length < HEADER_TOTAL_SIZE then
    .error (.msg "Buffer invalido ou muito pequeno")
  else
    .ok ⟨readUInt32BE b, (b.drop 4).take 12, (b.drop 16).take 16, b.drop 32⟩

/-- The `size` getter: header plus ciphertext length. -/
def EncryptedChunk.size (c : EncryptedChunk) : Nat :=
  HEADER_TOTAL_SIZE + c.ciphertext.length

/-- `encryptChunk(plaintext, videoKey, videoId, chunkIndex)`.  The random
IV drawn by `crypto.randomBytes(CONFIG.CRYPTO.IV_LENGTH)` is passed in
explicitly as `iv`. -/
def encryptChunk (A : Aead) (iv plaintext videoKey : List Nat)
    (videoId : String) (chunkIndex : Nat) : Except JsError EncryptedChunk := do
  validateBuffer plaintext "plaintext"
  validateMasterKey videoKey
  validateVideoId videoId
  validateChunkIndex chunkIndex
  let aad ← createAAD videoId chunkIndex
  let sealed := A.aead_seal videoKey iv aad plaintext
  .ok ⟨chunkIndex, iv, sealed.2, sealed.1⟩

/-- `decryptChunk(encryptedChunk, videoKey, videoId)`: rebuild the AAD
from the frame's own carried index and open; an authentication failure
carries the failing index. -/
def decryptChunk (A : Aead) (c : EncryptedChunk) (videoKey : List Nat)
    (videoId : String) : Except JsError (List Nat) := do
  validateMasterKey videoKey
  validateVideoId videoId
  let aad ← createAAD videoId c.index
  match A.aead_open videoKey c.iv aad c.ciphertext c.tag with
  | some p => .ok p
  | none => .error (.auth c.index)

/-! ## Streaming framer (`src/core/encryption-stream.js` and the
decryption-stream module) -/

/-- The `while (buffer.length >= chunkSize)` loop of
`EncryptionStream._transform`: slice full frames off the front of the
accumulated buffer, returning the slices and the remaining buffer.
`fuel` bounds the iteration count; callers pass the buffer length, which
suffices whenever the loop terminates in the source. -/
def sliceLoop (F : Nat) : Nat → List Nat → List (List Nat) × List Nat
  | 0, buf => ([], buf)
  | fuel + 1, buf =>
    if F ≤ buf.length then
      let r := sliceLoop F fuel (buf.drop F)
      (buf.take F :: r.1, r.2)
    else ([], buf)

/-- A single write of `data` followed by end-of-input: the slices of the
`_transform` loop plus the final short frame pushed by `_flush` when the
remainder is non-empty. -/
def encryptSlices (F : Nat) (data : List Nat) : List (List Nat) :=
  (sliceLoop F data.length data).1 ++
    (if (sliceLoop F data.length data).2 = [] then []
     else [(sliceLoop F data.length data).2])

/-- Encrypt a list of plaintext slices with consecutive chunk indices
starting at `i`, drawing the IV for index `j` from `nonces j`; the first
failing `encryptChunk` aborts the stream. -/
def encryptChunksFrom (A : Aead) (nonces : Nat → List Nat)
    (videoKey : List Nat) (videoId : String) :
    Nat → List (List Nat) → Except JsError (List EncryptedChunk)
  | _, [] => .ok []
  | i, c :: cs => do
    let e ← encryptChunk A (nonces i) c videoKey videoId i
    let es ← encryptChunksFrom A nonces videoKey videoId (i + 1) cs
    .ok (e :: es)

/-- The `EncryptionStream` on one write of `data` followed by
end-of-input: split into frames and encrypt them with indices 0, 1, 2, …
-/
def encryptStream (A : Aead) (nonces : Nat → List Nat)
    (videoKey : List Nat) (videoId : String) (F : Nat) (data : List Nat) :
    Except JsError (List EncryptedChunk) :=
  encryptChunksFrom A nonces videoKey videoId 0 (encryptSlices F data)

/-- The `DecryptionStream` on a sequence of frames: decrypt each in
arrival order and concatenate the pushed plaintexts; the first failure
aborts.  The stream keeps no expected-index state. -/
def decryptStream (A : Aead) (frames : List EncryptedChunk)
    (videoKey : List Nat) (videoId : String) : Except JsError (List Nat) :=
  match frames with
  | [] => .ok []
  | c :: cs => do
    let p ← decryptChunk A c videoKey videoId
    let ps ← decryptStream A cs videoKey videoId
    .ok (p ++ ps)

/-- The `while (buffer.length >= minChunkSize)` loop of the
whole-buffer `ChunkDeserializationStream._transform` (the variant whose
comment assumes each write contains one complete chunk):
`EncryptedChunk.fromBuffer` takes the whole accumulated buffer as one
frame, and a parse failure breaks the loop to wait for more data.
`fuel` bounds the iteration count. -/
def deserLegacyLoop : Nat → List Nat → List EncryptedChunk × List Nat
  | 0, buf => ([], buf)
  | fuel + 1, buf =>
    if HEADER_TOTAL_SIZE + 1 ≤ buf.length then
      match EncryptedChunk.fromBuffer buf with
      | .ok c =>
        let r := deserLegacyLoop fuel (buf.drop c.size)
        (c :: r.1, r.2)
      | .error _ => ([], buf)
    else ([], buf)

/-! ## In-memory buffer operations (`src/core/file-crypto.js`) -/

/-- `encryptBuffer({data, masterKey, videoId, chunkSize})`: derive the
object subkey, run the encryption stream on the single write `data`, and
serialize each frame.  `F` is `options.chunkSize`, defaulting to
`CONFIG.CHUNK_SIZE` in the source. -/
def encryptBuffer (A : Aead) (nonces : Nat → List Nat) (data masterKey : List Nat)
    (videoId : String) (F : Nat) : Except JsError (List (List Nat)) := do
  let vk ← deriveVideoKey masterKey videoId
  let es ← encryptStream A nonces vk videoId F data
  .ok (es.map EncryptedChunk.toBuffer)

/-- The deserialization-plus-decryption pipeline of `decryptBuffer`,
fed one serialized chunk per write with carry buffer `buf`: each write
runs the whole-buffer deserialization loop, each parsed frame is
decrypted immediately, and at end-of-input a non-empty residue raises
the `_flush` error. -/
def decryptWrites (A : Aead) (videoKey : List Nat) (videoId : String) :
    List (List Nat) → List Nat → Except JsError (List Nat)
  | [], buf =>
    if buf = [] then .ok []
    else .error (.msg "Buffer contem dados nao processados")
  | w :: ws, buf => do
    let r := deserLegacyLoop (buf ++ w).length (buf ++ w)
    let ps ← decryptStream A r.1 videoKey videoId
    let rest ← decryptWrites A videoKey videoId ws r.2
    .ok (ps ++ rest)

/-- `decryptBuffer({chunks, masterKey, videoId})`: derive the object
subkey and feed each serialized chunk as one write through
deserialization and decryption.  The repository contains two
`ChunkDeserializationStream` definitions; this composition uses the
whole-buffer variant, the one compatible with the bare-frame output of
`ChunkSerializationStream` and with the repository's integration tests
(the length-prefixed variant is modelled separately below as
`parseEnvelope`). -/
def decryptBuffer (A : Aead) (chunks : List (List Nat)) (masterKey : List Nat)
    (videoId : String) : Except JsError (List Nat) := do
  let vk ← deriveVideoKey masterKey videoId
  decryptWrites A vk videoId chunks []

/-! ## Length-prefixed envelope parsing (the second
`ChunkDeserializationStream` variant) -/

/-- The `while (buffer.length >= 4)` loop of the length-prefixed
`ChunkDeserializationStream._transform`: read the prospective body
length, wait if the record is incomplete, otherwise slice the body off
and deserialize it; a deserialization failure propagates out of the
loop.  `fuel` bounds the iteration count. -/
def envelopeLoop : Nat → List Nat → Except JsError (List EncryptedChunk × List Nat)
  | 0, buf => .ok ([], buf)
  | fuel + 1, buf =>
    if 4 ≤ buf.length then
      let bodyLen := readUInt32BE buf
      if buf.length < 4 + bodyLen then .ok ([], buf)
      else do
        let c ← EncryptedChunk.fromBuffer ((buf.drop 4).take bodyLen)
        let r ← envelopeLoop fuel (buf.drop (4 + bodyLen))
        .ok (c :: r.1, r.2)
    else .ok ([], buf)

/-- The length-prefixed stream on one write of `input` followed by
end-of-input: run the parsing loop, then `_flush` raises the
unprocessed-bytes error when the accumulator is non-empty. -/
def parseEnvelope (input : List Nat) : Except JsError (List EncryptedChunk) := do
  let r ← envelopeLoop input.length input
  if r.2 = [] then .ok r.1 else .error (.unprocessed r.2.length)

/-! ## Sample values used to evaluate the model on concrete inputs -/

/-- A sample 32-byte master key (bytes 0..31): 32 distinct values, not
all zero, so it passes `validateMasterKey`. -/
def sampleMasterKey : List Nat := List.range 32

/-- A sample nonce source: every frame draws the 12-byte nonce
`[7, …, 7]` (the model's stand-in for `crypto.randomBytes(12)`). -/
def sampleNonces : Nat → List Nat := fun _ => List.replicate 12 7

/-! ## Basic lemmas -/

theorem uint32be_length (n : Nat) : (uint32be n).length = 4 := rfl

theorem readUInt32BE_uint32be (n : Nat) (rest : List Nat) (h : n < 4294967296) :
    readUInt32BE (uint32be n ++ rest) = n := by
  simp only [uint32be, readUInt32BE, List.cons_append, List.nil_append,
    List.getD_cons_zero, List.getD_cons_succ]
  omega

theorem foldl_sha256Round_length (l : List (Nat × Nat)) (st : List Nat)
    (h : st.length = 8) : (l.foldl sha256Round st).length = 8 := by
  induction l generalizing st with
  | nil => simpa using h
  | cons x xs ih =>
    rw [List.foldl_cons]
    exact ih _ rfl

theorem sha256Compress_length (h b : List Nat) (hl : h.length = 8) :
    (sha256Compress h b).length = 8 := by
  simp [sha256Compress, List.length_zipWith, hl,
    foldl_sha256Round_length _ _ hl]

theorem foldl_sha256Compress_length (bs : List (List Nat)) (st : List Nat)
    (h : st.length = 8) : (bs.foldl sha256Compress st).length = 8 := by
  induction bs generalizing st with
  | nil => simpa using h
  | cons b bs ih =>
    rw [List.foldl_cons]
    exact ih _ (sha256Compress_length _ _ h)

theorem foldr_uint32be_length (l : List Nat) :
    (l.foldr (fun w acc => uint32be w ++ acc) []).length = 4 * l.length := by
  induction l with
  | nil => rfl
  | cons x xs ih =>
    simp [List.foldr_cons, ih, uint32be_length]
    omega

/-- Every SHA-256 digest is 32 bytes. -/
theorem sha256_length (m : List Nat) : (sha256 m).length = 32 := by
  unfold sha256
  rw [foldr_uint32be_length, foldl_sha256Compress_length _ _ (by decide)]

/-! ## Validator characterizations -/

theorem validateMasterKey_ok_iff (k : List Nat) :
    validateMasterKey k = .ok () ↔
      (k.length = 32 ∧ ¬ k.all (· = 0) ∧ 16 ≤ k.dedup.length) := by
  unfold validateMasterKey
  split_ifs with h1 h2 h3 <;> simp_all

theorem validateVideoId_ok_iff (s : String) :
    validateVideoId s = .ok () ↔
      (s ≠ "" ∧ s.length ≤ MAX_VIDEO_ID_LENGTH ∧ s.data.all allowedIdChar) := by
  unfold validateVideoId MAX_VIDEO_ID_LENGTH
  constructor
  · intro h
    split_ifs at h with h1 h2 h3 h4
    exact ⟨h1, by omega, by simpa using h4⟩
  · rintro ⟨h1, h2, h3⟩
    have hd : s.data ≠ [] := fun hh => h1 (String.ext (hh.trans rfl))
    have hl : ¬ s.length < 1 := by
      have he : s.length = s.data.length := rfl
      have := List.length_pos.mpr hd
      omega
    rw [if_neg h1, if_neg hl, if_neg (by omega), if_neg (by simpa using h3)]

theorem validateChunkIndex_ok_iff (i : Nat) :
    validateChunkIndex i = .ok () ↔ i ≤ MAX_CHUNKS_PER_VIDEO := by
  unfold validateChunkIndex MAX_CHUNKS_PER_VIDEO
  split_ifs with h1 h2 <;> simp_all
  omega

theorem validateBuffer_ok_iff (b : List Nat) (f : String) :
    validateBuffer b f = .ok () ↔ b ≠ [] := by
  unfold validateBuffer
  split_ifs with h <;> simp_all

theorem createAAD_ok (videoId : String) (i : Nat) (h1 : videoId ≠ "")
    (h2 : i ≤ 4294967295) :
    createAAD videoId i = .ok (specAAD videoId i) := by
  unfold createAAD specAAD
  rw [if_neg h1, if_neg (by omega)]

/-! ## Test vectors

Known-answer checks pinning the embedded primitives to FIPS 180-4 and
RFC 4231: the digest of `"abc"` and HMAC-SHA-256 test case 1. -/

set_option maxRecDepth 100000 in
theorem sha256_known_answer :
    sha256 [97, 98, 99] =
      [0xba, 0x78, 0x16, 0xbf, 0x8f, 0x01, 0xcf, 0xea, 0x41, 0x41, 0x40, 0xde,
       0x5d, 0xae, 0x22, 0x23, 0xb0, 0x03, 0x61, 0xa3, 0x96, 0x17, 0x7a, 0x9c,
       0xb4, 0x10, 0xff, 0x61, 0xf2, 0x00, 0x15, 0xad] := by decide

set_option maxRecDepth 400000 in
theorem hmacSha256_known_answer :
    hmacSha256 (List.replicate 20 11) (utf8Bytes "Hi There") =
      [0xb0, 0x34, 0x4c, 0x61, 0xd8, 0xdb, 0x38, 0x53, 0x5c, 0xa8, 0xaf, 0xce,
       0xaf, 0x0b, 0xf1, 0x2b, 0x88, 0x1d, 0xc2, 0x00, 0xc9, 0x83, 0x3d, 0xa7,
       0x26, 0xe9, 0x37, 0x6c, 0x2e, 0x32, 0xcf, 0xf7] := by decide

/-! ## C3 — key derivation matches the HKDF formula of the spec -/

/-- C3: for every valid 32-byte master key `M` and valid object id `O`,
`deriveVideoKey(M, O)` equals the first 32 bytes of
`HMAC-SHA-256(prk, INFO || 0x01)` with
`prk = HMAC-SHA-256(SHA-256(O_utf8), M)` and `INFO` the fixed byte
string `"@kitsuneislife/keyring-vcm-v1"`; being a pure function of
`(M, O)`, the derivation is deterministic. -/
theorem deriveVideoKey_matches_spec (M : List Nat) (O : String)
    (hM : validateMasterKey M = .ok ()) (hO : validateVideoId O = .ok ()) :
    deriveVideoKey M O = .ok (specSubkey M O) := by
  unfold deriveVideoKey specSubkey hkdfInfo
  rw [hM, hO]
  rfl

theorem deriveVideoKey_matches_spec_witness :
    validateMasterKey sampleMasterKey = .ok () ∧
    validateVideoId "video-1" = .ok () ∧
    deriveVideoKey sampleMasterKey "video-1" =
      .ok (specSubkey sampleMasterKey "video-1") :=
  ⟨by decide, by decide,
    deriveVideoKey_matches_spec sampleMasterKey "video-1" (by decide) (by decide)⟩

/-! ## C6 — associated data -/

/-- C6: for every non-empty object id `O` and index `i` in
`[0, 2^32 - 1]`, the associated data is
`SHA-256(O_utf8 || uint32_be(i))`, it is exactly 32 bytes, and — the
right-hand side mentioning nothing but `O` and `i` — it is computed
solely from the object id and the frame index, with no key material. -/
theorem createAAD_matches_spec (O : String) (i : Nat)
    (hO : O ≠ "") (hi : i ≤ 4294967295) :
    createAAD O i = .ok (specAAD O i) ∧ (specAAD O i).length = 32 :=
  ⟨createAAD_ok O i hO hi, sha256_length _⟩

theorem createAAD_matches_spec_witness :
    ("video-1" ≠ "" ∧ (0 : Nat) ≤ 4294967295) ∧
    (createAAD "video-1" 0 = .ok (specAAD "video-1" 0) ∧
      (specAAD "video-1" 0).length = 32) :=
  ⟨⟨by decide, by decide⟩, createAAD_matches_spec "video-1" 0 (by decide) (by decide)⟩

/-! ## C7 — short-frame rejection threshold -/

/-- C7 counterexample: a 32-byte buffer — shorter than the 33 bytes the
claim says are required — is accepted by `EncryptedChunk.fromBuffer`,
yielding a frame with empty ciphertext. -/
theorem fromBuffer_accepts_32_byte_buffer :
    EncryptedChunk.fromBuffer (List.replicate 32 0) =
      .ok ⟨0, List.replicate 12 0, List.replicate 16 0, []⟩ := by decide

/-- C7 (amended): deserialization fails with the short-frame error
exactly when the buffer is shorter than the 32-byte header; every
accepted buffer has length at least 32, and a 32-byte buffer is
accepted with empty ciphertext. -/
theorem fromBuffer_short_iff (b : List Nat) :
    EncryptedChunk.fromBuffer b = .error (.msg "Buffer invalido ou muito pequeno") ↔
      b.length < 32 := by
  unfold EncryptedChunk.fromBuffer HEADER_TOTAL_SIZE
  split_ifs with h <;> simp [h]

/-! ## C5 — frame serialization layout and round trip -/

theorem toBuffer_assoc (c : EncryptedChunk) :
    c.toBuffer = uint32be c.index ++ (c.iv ++ (c.tag ++ c.ciphertext)) := by
  simp [EncryptedChunk.toBuffer, List.append_assoc]

theorem toBuffer_length (c : EncryptedChunk) :
    c.toBuffer.length = 4 + c.iv.length + c.tag.length + c.ciphertext.length := by
  simp [EncryptedChunk.toBuffer, uint32be]
  omega

theorem toBuffer_drop_4 (c : EncryptedChunk) :
    c.toBuffer.drop 4 = c.iv ++ (c.tag ++ c.ciphertext) := by
  rw [toBuffer_assoc]
  have h := List.drop_left (uint32be c.index) (c.iv ++ (c.tag ++ c.ciphertext))
  rwa [uint32be_length] at h

theorem toBuffer_drop_16 (c : EncryptedChunk) (hiv : c.iv.length = 12) :
    c.toBuffer.drop 16 = c.tag ++ c.ciphertext := by
  have h : (c.toBuffer.drop 4).drop 12 = c.tag ++ c.ciphertext := by
    rw [toBuffer_drop_4, ← hiv, List.drop_left]
  rwa [List.drop_drop] at h

theorem toBuffer_drop_32 (c : EncryptedChunk) (hiv : c.iv.length = 12)
    (htag : c.tag.length = 16) :
    c.toBuffer.drop 32 = c.ciphertext := by
  have h : (c.toBuffer.drop 16).drop 16 = c.ciphertext := by
    rw [toBuffer_drop_16 c hiv, ← htag, List.drop_left]
  rwa [List.drop_drop] at h

theorem fromBuffer_toBuffer (c : EncryptedChunk)
    (hiv : c.iv.length = 12) (htag : c.tag.length = 16)
    (hidx : c.index < 4294967296) :
    EncryptedChunk.fromBuffer c.toBuffer = .ok c := by
  unfold EncryptedChunk.fromBuffer HEADER_TOTAL_SIZE
  rw [if_neg (by rw [toBuffer_length, hiv, htag]; omega)]
  have hidx' : readUInt32BE c.toBuffer = c.index := by
    rw [toBuffer_assoc]
    exact readUInt32BE_uint32be c.index _ hidx
  have h1 : (c.toBuffer.drop 4).take 12 = c.iv := by
    rw [toBuffer_drop_4, ← hiv, List.take_left]
  have h2 : (c.toBuffer.drop 16).take 16 = c.tag := by
    rw [toBuffer_drop_16 c hiv, ← htag, List.take_left]
  rw [hidx', h1, h2, toBuffer_drop_32 c hiv htag]

/-- C5: a frame with 12-byte nonce, 16-byte tag, 32-bit index and
`N`-byte ciphertext serializes to exactly `32 + N` bytes laid out as
big-endian index, nonce, tag, ciphertext, and deserializing that buffer
returns the original frame. -/
theorem frame_serialization_roundtrip (c : EncryptedChunk)
    (hiv : c.iv.length = 12) (htag : c.tag.length = 16)
    (hidx : c.index < 4294967296) :
    c.toBuffer = uint32be c.index ++ c.iv ++ c.tag ++ c.ciphertext ∧
    c.toBuffer.length = 32 + c.ciphertext.length ∧
    EncryptedChunk.fromBuffer c.toBuffer = .ok c :=
  ⟨rfl, by rw [toBuffer_length, hiv, htag], fromBuffer_toBuffer c hiv htag hidx⟩

/-! ## C9 — object-id validation -/

set_option maxRecDepth 1000000 in
/-- C9 counterexample: a 256-character id over the allowed alphabet is
rejected — the source's limit is `MAX_VIDEO_ID_LENGTH = 255`, not the
256 bytes stated by the claim. -/
theorem validateVideoId_rejects_256_chars :
    validateVideoId (String.mk (List.replicate 256 'a')) =
      .error (.validation "videoId") := by decide

/-- C9 (amended): object-id validation accepts exactly the strings that
are non-empty, at most 255 characters long, and drawn from the character
class `[A-Za-z0-9._:\-]+`; every other string is rejected with a
`ValidationError` on the `videoId` field.  (JavaScript measures the
length in UTF-16 code units, which coincides with the character count on
the ASCII-only allowed alphabet.) -/
theorem validateVideoId_accepts_iff (s : String) :
    validateVideoId s = .ok () ↔
      (s ≠ "" ∧ s.length ≤ 255 ∧ s.data.all allowedIdChar) :=
  validateVideoId_ok_iff s

/-! ## C10 — master-key import from hex -/

/-- C10 counterexample: a 65-character (odd-length) hex string is
accepted by `importMasterKey` — Node's hex decoding silently drops the
trailing lone digit, and the remaining 64 digits decode to a valid
32-byte key. -/
theorem importMasterKey_accepts_odd_length_hex :
    importMasterKey
        "000102030405060708090a0b0c0d0e0f101112131415161718191a1b1c1d1e1fa" =
      .ok (List.range 32) := by decide

/-- C10 (amended): import accepts (returning the hex-decoded bytes)
exactly when the string is non-empty, every character is a hex digit,
and the decoded value is a 32-byte key passing the entropy floor; odd
length is not rejected as such — the trailing lone digit is dropped by
decoding, so both 64- and 65-character hex strings can decode to an
accepted 32-byte key. -/
theorem importMasterKey_ok_iff (s : String) :
    importMasterKey s = .ok (hexDecode s.data) ↔
      (s ≠ "" ∧ s.data.all isHexDigit ∧ (hexDecode s.data).length = 32 ∧
       ¬ (hexDecode s.data).all (· = 0) ∧ 16 ≤ (hexDecode s.data).dedup.length) := by
  unfold importMasterKey
  by_cases h1 : s = ""
  · subst h1
    simp
  · rw [if_neg h1]
    by_cases h2 : s.data.all isHexDigit
    · rw [if_neg (by simpa using h2)]
      rcases hv : validateMasterKey (hexDecode s.data) with e | u
      · have hne : ¬ ((hexDecode s.data).length = 32 ∧
            ¬ (hexDecode s.data).all (· = 0) ∧
            16 ≤ (hexDecode s.data).dedup.length) := by
          intro hc
          rw [(validateMasterKey_ok_iff _).mpr hc] at hv
          exact Except.noConfusion hv
        simp only [hv, Except.bind]
        constructor
        · intro h
          exact Except.noConfusion h
        · rintro ⟨-, -, hlen, hz, hd⟩
          exact absurd ⟨hlen, hz, hd⟩ hne
      · obtain ⟨hlen, hz, hd⟩ := (validateMasterKey_ok_iff _).mp (by rw [hv])
        constructor
        · intro _
          exact ⟨h1, by simpa using h2, hlen, by simpa using hz, hd⟩
        · intro _
          cases u
          simp only [hv]
          rfl
    · rw [if_pos (by simpa using h2)]
      constructor
      · intro h
        exact Except.noConfusion h
      · rintro ⟨-, hhex, -⟩
        exact absurd hhex h2

/-! ## C2 — no expected-index tracking in the decryption stream -/

set_option maxRecDepth 1000000 in
/-- C2 counterexample: a sequence of two valid frames with indices
`1, 0` — not monotone from zero — is decrypted successfully, emitting
both plaintexts in arrival order, instead of aborting with an order
error. -/
theorem decryptStream_accepts_out_of_order_frames :
    decryptStream hashTagAead
      [⟨1, List.replicate 12 7,
         hashTag sampleMasterKey (List.replicate 12 7) (specAAD "video-1" 1) [20],
         [20]⟩,
       ⟨0, List.replicate 12 7,
         hashTag sampleMasterKey (List.replicate 12 7) (specAAD "video-1" 0) [10],
         [10]⟩]
      sampleMasterKey "video-1" = .ok [20, 10] := by decide

/-- C2 (amended): the decryption stream keeps no expected-index state:
it decrypts every yielded frame with the AAD rebuilt from the frame's
own carried index, so any sequence of individually valid frames —
whatever the order of its indices — is decrypted and its plaintexts
are emitted in arrival order; no order error is raised. -/
theorem decryptStream_ignores_frame_order (A : Aead) (vk : List Nat)
    (O : String) (fs : List EncryptedChunk) (ps : List (List Nat))
    (h : List.Forall₂ (fun f p => decryptChunk A f vk O = .ok p) fs ps) :
    decryptStream A fs vk O = .ok ps.flatten := by
  induction h with
  | nil => rfl
  | cons hfp _ ih =>
    simp only [decryptStream, hfp, ih]
    rfl

set_option maxRecDepth 1000000 in
theorem decryptStream_ignores_frame_order_witness :
    List.Forall₂
      (fun f p => decryptChunk hashTagAead f sampleMasterKey "video-1" = .ok p)
      [⟨1, List.replicate 12 7,
         hashTag sampleMasterKey (List.replicate 12 7) (specAAD "video-1" 1) [20],
         [20]⟩]
      [[20]] ∧
    decryptStream hashTagAead
      [⟨1, List.replicate 12 7,
         hashTag sampleMasterKey (List.replicate 12 7) (specAAD "video-1" 1) [20],
         [20]⟩]
      sampleMasterKey "video-1" = .ok ([[20]] : List (List Nat)).flatten :=
  ⟨List.Forall₂.cons (by decide) List.Forall₂.nil,
    decryptStream_ignores_frame_order hashTagAead sampleMasterKey "video-1" _ _
      (List.Forall₂.cons (by decide) List.Forall₂.nil)⟩

/-! ## Framing lemmas (towards C4 and C1) -/

/-- The slicing loop, run with enough fuel and a positive frame size:
the slices and the residue reassemble to the buffer, every slice is
exactly `F` long, the residue is shorter than `F`, and the number of
slices is `⌊buf.length / F⌋`. -/
theorem sliceLoop_spec (F : Nat) (hF : 0 < F) :
    ∀ fuel buf, buf.length ≤ fuel →
      (sliceLoop F fuel buf).1.flatten ++ (sliceLoop F fuel buf).2 = buf ∧
      (∀ c ∈ (sliceLoop F fuel buf).1, c.length = F) ∧
      (sliceLoop F fuel buf).2.length < F ∧
      (sliceLoop F fuel buf).1.length = buf.length / F := by
  intro fuel
  induction fuel with
  | zero =>
    intro buf h
    have hb : buf = [] := List.eq_nil_of_length_eq_zero (by omega)
    subst hb
    exact ⟨rfl, by simp [sliceLoop], by simpa [sliceLoop] using hF, by simp [sliceLoop]⟩
  | succ fuel ih =>
    intro buf h
    by_cases hge : F ≤ buf.length
    · have hfuel : (buf.drop F).length ≤ fuel := by
        rw [List.length_drop]
        omega
      obtain ⟨ih1, ih2, ih3, ih4⟩ := ih (buf.drop F) hfuel
      simp only [sliceLoop, if_pos hge]
      refine ⟨?_, ?_, ih3, ?_⟩
      · simp only [List.flatten_cons, List.append_assoc, ih1]
        exact List.take_append_drop F buf
      · intro c hc
        rcases List.mem_cons.mp hc with rfl | hc
        · rw [List.length_take]
          omega
        · exact ih2 c hc
      · simp only [List.length_cons, ih4, List.length_drop]
        rw [Nat.div_eq_sub_div hF hge]
    · simp only [sliceLoop, if_neg hge]
      exact ⟨by simp, by simp, by omega,
        by simpa using (Nat.div_eq_of_lt (by omega : buf.length < F)).symm⟩

/-- The slices of one write plus flush reassemble to the input. -/
theorem encryptSlices_flatten (F : Nat) (hF : 0 < F) (b : List Nat) :
    (encryptSlices F b).flatten = b := by
  obtain ⟨h1, -, -, -⟩ := sliceLoop_spec F hF b.length b le_rfl
  unfold encryptSlices
  by_cases hr : (sliceLoop F b.length b).2 = []
  · rw [if_pos hr, List.append_nil]
    rw [hr, List.append_nil] at h1
    exact h1
  · rw [if_neg hr, List.flatten_append]
    simpa using h1

/-- Ceiling division, split on whether the division is exact. -/
theorem ceil_div_cases (F n : Nat) (hF : 0 < F) :
    (n + F - 1) / F = n / F + (if n % F = 0 then 0 else 1) := by
  have hq := Nat.div_add_mod n F
  rcases eq_or_ne (n % F) 0 with h | h
  · rw [if_pos h]
    have he : n + F - 1 = F * (n / F) + (F - 1) := by omega
    rw [he, Nat.mul_add_div hF,
      Nat.div_eq_of_lt (show F - 1 < F by omega), Nat.add_zero]
  · rw [if_neg h]
    have hlt : n % F < F := Nat.mod_lt n hF
    have h2 : F * (n / F + 1) = F * (n / F) + F := by ring
    have he : n + F - 1 = F * (n / F + 1) + (n % F - 1) := by omega
    rw [he, Nat.mul_add_div hF,
      Nat.div_eq_of_lt (show n % F - 1 < F by omega), Nat.add_zero]

/-- The residue of the slicing loop is `buf.length % F` long. -/
theorem sliceLoop_residue_length (F : Nat) (hF : 0 < F) (b : List Nat) :
    (sliceLoop F b.length b).2.length = b.length % F := by
  obtain ⟨h1, h2, -, h4⟩ := sliceLoop_spec F hF b.length b le_rfl
  have hflat : (sliceLoop F b.length b).1.flatten.length =
      (sliceLoop F b.length b).1.length * F := by
    have hrep : ((sliceLoop F b.length b).1.map List.length) =
        List.replicate ((sliceLoop F b.length b).1.map List.length).length F := by
      apply List.eq_replicate_of_mem
      intro x hx
      obtain ⟨c, hc, rfl⟩ := List.mem_map.mp hx
      exact h2 c hc
    rw [List.length_flatten, hrep, List.sum_replicate, smul_eq_mul,
      List.length_map]
  have hlen := congrArg List.length h1
  rw [List.length_append, hflat, h4, Nat.mul_comm] at hlen
  have hdm := Nat.div_add_mod b.length F
  omega

/-- Properties of the slice list of the encryption framer (C4, at the
level of plaintext slices). -/
theorem encryptSlices_spec (F : Nat) (hF : 0 < F) (b : List Nat) :
    (encryptSlices F b).length = (b.length + F - 1) / F ∧
    (∀ c ∈ (encryptSlices F b).dropLast, c.length = F) ∧
    (∀ c ∈ encryptSlices F b, 1 ≤ c.length ∧ c.length ≤ F) ∧
    (b = [] → encryptSlices F b = []) ∧
    (F ∣ b.length → (encryptSlices F b).length = b.length / F ∧
      ∀ c ∈ encryptSlices F b, c.length = F) := by
  obtain ⟨h1, h2, h3, h4⟩ := sliceLoop_spec F hF b.length b le_rfl
  have hres := sliceLoop_residue_length F hF b
  have hceil := ceil_div_cases F b.length hF
  unfold encryptSlices
  by_cases hr : (sliceLoop F b.length b).2 = []
  · have hmod : b.length % F = 0 := by
      rw [← hres, hr]
      rfl
    rw [if_pos hr, List.append_nil]
    refine ⟨?_, ?_, ?_, fun hb => ?_, fun _ => ⟨h4, h2⟩⟩
    · rw [h4, hceil, if_pos hmod, Nat.add_zero]
    · intro c hc
      exact h2 c (List.dropLast_subset _ hc)
    · intro c hc
      have := h2 c hc
      omega
    · subst hb
      simp only [List.length_nil] at h4
      exact List.eq_nil_of_length_eq_zero (by simp [h4])
  · have hrpos : 0 < (sliceLoop F b.length b).2.length := List.length_pos.mpr hr
    have hmod : b.length % F ≠ 0 := by
      rw [← hres]
      omega
    rw [if_neg hr]
    refine ⟨?_, ?_, ?_, fun hb => ?_, fun hd => ?_⟩
    · rw [List.length_append, List.length_singleton, h4, hceil, if_neg hmod]
    · intro c hc
      rw [List.dropLast_concat] at hc
      exact h2 c hc
    · intro c hc
      rcases List.mem_append.mp hc with hc | hc
      · have := h2 c hc
        omega
      · have hcr : c = (sliceLoop F b.length b).2 := by simpa using hc
        rw [hcr, hres]
        omega
    · subst hb
      exact absurd (by simp) hmod
    · obtain ⟨k, hk⟩ := hd
      rw [hk, Nat.mul_mod_right] at hmod
      exact absurd rfl hmod

/-! ## Inversion of the encryption pipeline -/

theorem bind_ok_inv {ε α β : Type} {x : Except ε α} {f : α → Except ε β}
    {b : β} (h : x >>= f = .ok b) : ∃ a, x = .ok a ∧ f a = .ok b := by
  cases x with
  | error e => exact Except.noConfusion h
  | ok a => exact ⟨a, rfl, h⟩

/-- What a successful `encryptChunk` tells us: the inputs passed
validation and the resulting frame is the sealed record at the given
index and IV, with the AAD of (videoId, index). -/
theorem encryptChunk_ok_inv {A : Aead} {iv p vk : List Nat} {O : String}
    {i : Nat} {e : EncryptedChunk}
    (h : encryptChunk A iv p vk O i = .ok e) :
    p ≠ [] ∧ validateMasterKey vk = .ok () ∧ validateVideoId O = .ok () ∧
    i ≤ MAX_CHUNKS_PER_VIDEO ∧
    e = ⟨i, iv, (A.aead_seal vk iv (specAAD O i) p).2,
          (A.aead_seal vk iv (specAAD O i) p).1⟩ := by
  unfold encryptChunk at h
  obtain ⟨u1, h1, h⟩ := bind_ok_inv h
  obtain ⟨u2, h2, h⟩ := bind_ok_inv h
  obtain ⟨u3, h3, h⟩ := bind_ok_inv h
  obtain ⟨u4, h4, h⟩ := bind_ok_inv h
  obtain ⟨aad, h5, h⟩ := bind_ok_inv h
  cases u1; cases u2; cases u3; cases u4
  have hp : p ≠ [] := (validateBuffer_ok_iff p "plaintext").mp h1
  have hO : O ≠ "" := ((validateVideoId_ok_iff O).mp h3).1
  have hi : i ≤ MAX_CHUNKS_PER_VIDEO := (validateChunkIndex_ok_iff i).mp h4
  have haad : aad = specAAD O i := by
    rw [createAAD_ok O i hO (by unfold MAX_CHUNKS_PER_VIDEO at hi; omega)] at h5
    exact (Except.ok.injEq _ _).mp h5.symm
  subst haad
  simp only [Except.ok.injEq] at h
  exact ⟨hp, h2, h3, hi, h.symm⟩

/-- What a successful `encryptChunksFrom` tells us: one frame per slice,
indices counting up from `i`, and each frame the sealed record of its
slice. -/
theorem encryptChunksFrom_ok_inv {A : Aead} {nonces : Nat → List Nat}
    {vk : List Nat} {O : String} :
    ∀ {i : Nat} {cs : List (List Nat)} {es : List EncryptedChunk},
      encryptChunksFrom A nonces vk O i cs = .ok es →
      es.map (·.index) = List.range' i cs.length ∧
      List.Forall₂
        (fun (e : EncryptedChunk) (c : List Nat) =>
          c ≠ [] ∧ validateMasterKey vk = .ok () ∧
          validateVideoId O = .ok () ∧ e.index ≤ MAX_CHUNKS_PER_VIDEO ∧
          e = ⟨e.index, nonces e.index,
                (A.aead_seal vk (nonces e.index) (specAAD O e.index) c).2,
                (A.aead_seal vk (nonces e.index) (specAAD O e.index) c).1⟩)
        es cs := by
  intro i cs
  induction cs generalizing i with
  | nil =>
    intro es h
    unfold encryptChunksFrom at h
    simp only [Except.ok.injEq] at h
    subst h
    exact ⟨rfl, List.Forall₂.nil⟩
  | cons c cs ih =>
    intro es h
    unfold encryptChunksFrom at h
    obtain ⟨e, he, h⟩ := bind_ok_inv h
    obtain ⟨es', hes, h⟩ := bind_ok_inv h
    simp only [Except.ok.injEq] at h
    subst h
    obtain ⟨hp, hM, hO, hi, hee⟩ := encryptChunk_ok_inv he
    obtain ⟨hmap, hforall⟩ := ih hes
    have hidx : e.index = i := by rw [hee]
    refine ⟨?_, List.Forall₂.cons ⟨hp, hM, hO, ?_, ?_⟩ hforall⟩
    · simp only [List.map_cons, hmap, List.length_cons, List.range'_succ, hidx]
    · rw [hidx]; exact hi
    · rw [hidx]; exact hee

theorem forall₂_mem_left {α β : Type} {R : α → β → Prop} {l₁ : List α}
    {l₂ : List β} (h : List.Forall₂ R l₁ l₂) {x : α} (hx : x ∈ l₁) :
    ∃ y ∈ l₂, R x y := by
  induction h with
  | nil => cases hx
  | cons hr ht ih =>
    rcases List.mem_cons.mp hx with rfl | hx
    · exact ⟨_, List.mem_cons_self _ _, hr⟩
    · obtain ⟨y, hy, hxy⟩ := ih hx
      exact ⟨y, List.mem_cons_of_mem _ hy, hxy⟩

theorem forall₂_dropLast {α β : Type} {R : α → β → Prop} {l₁ : List α}
    {l₂ : List β} (h : List.Forall₂ R l₁ l₂) :
    List.Forall₂ R l₁.dropLast l₂.dropLast := by
  induction h with
  | nil => exact List.Forall₂.nil
  | @cons a b t₁ t₂ hr ht ih =>
    cases ht with
    | nil => exact List.Forall₂.nil
    | cons hr' ht' =>
      simpa using List.Forall₂.cons hr (by simpa using ih)

/-! ## C4 — framing of the encryption stream -/

/-- C4: whenever the encryption framer configured with frame size `F`
succeeds on input `B`, it emits exactly `⌈|B|/F⌉` frames with indices
`0, 1, 2, …` in increasing order; every frame except the last carries
exactly `F` bytes (ciphertext length equals plaintext length), every
frame carries between 1 and `F` bytes, empty input produces zero frames,
and an input whose length is an exact multiple of `F` produces `|B|/F`
frames none of which is short. -/
theorem encryptStream_framing (A : Aead) (nonces : Nat → List Nat)
    (vk : List Nat) (O : String) (F : Nat) (B : List Nat)
    (es : List EncryptedChunk) (hF : 0 < F)
    (h : encryptStream A nonces vk O F B = .ok es) :
    es.length = (B.length + F - 1) / F ∧
    es.map (·.index) = List.range es.length ∧
    (∀ e ∈ es.dropLast, e.ciphertext.length = F) ∧
    (∀ e ∈ es, 1 ≤ e.ciphertext.length ∧ e.ciphertext.length ≤ F) ∧
    (B = [] → es = []) ∧
    (F ∣ B.length →
      es.length = B.length / F ∧ ∀ e ∈ es, e.ciphertext.length = F) := by
  obtain ⟨hmap, hforall⟩ := encryptChunksFrom_ok_inv h
  have hlen : es.length = (encryptSlices F B).length := hforall.length_eq
  obtain ⟨hs1, hs2, hs3, hs4, hs5⟩ := encryptSlices_spec F hF B
  have hct : ∀ (e : EncryptedChunk) (c : List Nat),
      (c ≠ [] ∧ validateMasterKey vk = .ok () ∧ validateVideoId O = .ok () ∧
        e.index ≤ MAX_CHUNKS_PER_VIDEO ∧
        e = ⟨e.index, nonces e.index,
              (A.aead_seal vk (nonces e.index) (specAAD O e.index) c).2,
              (A.aead_seal vk (nonces e.index) (specAAD O e.index) c).1⟩) →
      e.ciphertext.length = c.length := by
    rintro e c ⟨-, -, -, -, he⟩
    rw [he]
    exact A.ct_length _ _ _ _
  refine ⟨by rw [hlen, hs1], ?_, ?_, ?_, ?_, ?_⟩
  · rw [hmap, hlen, List.range_eq_range']
  · intro e he
    obtain ⟨c, hc, hr⟩ := forall₂_mem_left (forall₂_dropLast hforall) he
    rw [hct e c hr]
    exact hs2 c hc
  · intro e he
    obtain ⟨c, hc, hr⟩ := forall₂_mem_left hforall he
    rw [hct e c hr]
    exact hs3 c hc
  · intro hB
    have := hs4 hB
    rw [this] at hlen
    exact List.eq_nil_of_length_eq_zero (by simpa using hlen)
  · intro hd
    obtain ⟨hq, hall⟩ := hs5 hd
    refine ⟨by rw [hlen, hq], ?_⟩
    intro e he
    obtain ⟨c, hc, hr⟩ := forall₂_mem_left hforall he
    rw [hct e c hr]
    exact hall c hc

theorem encryptStream_framing_witness :
    (0 < 2 ∧
     encryptStream plainAead sampleNonces sampleMasterKey "video-1" 2
        [1, 2, 3, 4, 5] =
      .ok [⟨0, List.replicate 12 7, List.replicate 16 0, [1, 2]⟩,
           ⟨1, List.replicate 12 7, List.replicate 16 0, [3, 4]⟩,
           ⟨2, List.replicate 12 7, List.replicate 16 0, [5]⟩]) ∧
    ([(⟨0, List.replicate 12 7, List.replicate 16 0, [1, 2]⟩ : EncryptedChunk),
      ⟨1, List.replicate 12 7, List.replicate 16 0, [3, 4]⟩,
      ⟨2, List.replicate 12 7, List.replicate 16 0, [5]⟩].length =
        ([1, 2, 3, 4, 5].length + 2 - 1) / 2 ∧
     [(⟨0, List.replicate 12 7, List.replicate 16 0, [1, 2]⟩ : EncryptedChunk),
      ⟨1, List.replicate 12 7, List.replicate 16 0, [3, 4]⟩,
      ⟨2, List.replicate 12 7, List.replicate 16 0, [5]⟩].map (·.index) =
        List.range 3 ∧
     (∀ e ∈ [(⟨0, List.replicate 12 7, List.replicate 16 0, [1, 2]⟩ :
          EncryptedChunk),
        ⟨1, List.replicate 12 7, List.replicate 16 0, [3, 4]⟩,
        ⟨2, List.replicate 12 7, List.replicate 16 0, [5]⟩].dropLast,
        e.ciphertext.length = 2) ∧
     (∀ e ∈ [(⟨0, List.replicate 12 7, List.replicate 16 0, [1, 2]⟩ :
          EncryptedChunk),
        ⟨1, List.replicate 12 7, List.replicate 16 0, [3, 4]⟩,
        ⟨2, List.replicate 12 7, List.replicate 16 0, [5]⟩],
        1 ≤ e.ciphertext.length ∧ e.ciphertext.length ≤ 2) ∧
     (([1, 2, 3, 4, 5] : List Nat) = [] →
       [(⟨0, List.replicate 12 7, List.replicate 16 0, [1, 2]⟩ :
          EncryptedChunk),
        ⟨1, List.replicate 12 7, List.replicate 16 0, [3, 4]⟩,
        ⟨2, List.replicate 12 7, List.replicate 16 0, [5]⟩] = []) ∧
     (2 ∣ ([1, 2, 3, 4, 5] : List Nat).length →
       [(⟨0, List.replicate 12 7, List.replicate 16 0, [1, 2]⟩ :
          EncryptedChunk),
        ⟨1, List.replicate 12 7, List.replicate 16 0, [3, 4]⟩,
        ⟨2, List.replicate 12 7, List.replicate 16 0, [5]⟩].length =
          ([1, 2, 3, 4, 5] : List Nat).length / 2 ∧
       ∀ e ∈ [(⟨0, List.replicate 12 7, List.replicate 16 0, [1, 2]⟩ :
            EncryptedChunk),
          ⟨1, List.replicate 12 7, List.replicate 16 0, [3, 4]⟩,
          ⟨2, List.replicate 12 7, List.replicate 16 0, [5]⟩],
          e.ciphertext.length = 2)) :=
  ⟨⟨by decide, by decide⟩,
    encryptStream_framing plainAead sampleNonces sampleMasterKey "video-1" 2
      [1, 2, 3, 4, 5] _ (by decide) (by decide)⟩

/-! ## C1 — buffer encryption/decryption round trip -/

theorem decryptChunk_of_sealed (A : Aead) (vk : List Nat) (O : String)
    (i : Nat) (iv p : List Nat) (hM : validateMasterKey vk = .ok ())
    (hO : validateVideoId O = .ok ()) (hi : i ≤ 4294967295) :
    decryptChunk A
      ⟨i, iv, (A.aead_seal vk iv (specAAD O i) p).2,
        (A.aead_seal vk iv (specAAD O i) p).1⟩ vk O = .ok p := by
  have hO' : O ≠ "" := ((validateVideoId_ok_iff O).mp hO).1
  simp only [decryptChunk, hM, hO, createAAD_ok O i hO' hi]
  show (match A.aead_open vk iv (specAAD O i)
      (A.aead_seal vk iv (specAAD O i) p).1
      (A.aead_seal vk iv (specAAD O i) p).2 with
    | some q => Except.ok q
    | none => Except.error (JsError.auth i)) = .ok p
  rw [A.open_seal]

theorem deserLegacyLoop_nil (fuel : Nat) :
    deserLegacyLoop fuel [] = ([], []) := by
  cases fuel <;> simp [deserLegacyLoop]

/-- A single write holding exactly one serialized frame parses to that
frame with an empty carry buffer. -/
theorem deserLegacy_single (c : EncryptedChunk) (hiv : c.iv.length = 12)
    (htag : c.tag.length = 16) (hidx : c.index < 4294967296)
    (hct : 1 ≤ c.ciphertext.length) :
    deserLegacyLoop c.toBuffer.length c.toBuffer = ([c], []) := by
  have hlen : c.toBuffer.length = 32 + c.ciphertext.length := by
    rw [toBuffer_length, hiv, htag]
  obtain ⟨k, hk⟩ : ∃ k, c.toBuffer.length = k + 1 :=
    ⟨c.toBuffer.length - 1, by omega⟩
  rw [hk]
  simp only [deserLegacyLoop]
  rw [if_pos (show HEADER_TOTAL_SIZE + 1 ≤ c.toBuffer.length by
    unfold HEADER_TOTAL_SIZE; omega)]
  simp only [fromBuffer_toBuffer c hiv htag hidx]
  have hdrop : c.toBuffer.drop c.size = [] :=
    List.drop_eq_nil_of_le (by unfold EncryptedChunk.size HEADER_TOTAL_SIZE; omega)
  rw [hdrop, deserLegacyLoop_nil]

/-- Feeding the serialized frames of a successful `encryptChunksFrom`
one write at a time through deserialization and decryption recovers the
concatenated plaintext slices. -/
theorem decryptWrites_roundtrip {A : Aead} {nonces : Nat → List Nat}
    {vk : List Nat} {O : String} (hn : ∀ j, (nonces j).length = 12) :
    ∀ (i : Nat) (cs : List (List Nat)) (es : List EncryptedChunk),
      encryptChunksFrom A nonces vk O i cs = .ok es →
      decryptWrites A vk O (es.map EncryptedChunk.toBuffer) [] =
        .ok cs.flatten := by
  intro i cs
  induction cs generalizing i with
  | nil =>
    intro es h
    unfold encryptChunksFrom at h
    simp only [Except.ok.injEq] at h
    subst h
    rfl
  | cons c cs ih =>
    intro es h
    unfold encryptChunksFrom at h
    obtain ⟨e, he, h⟩ := bind_ok_inv h
    obtain ⟨es', hes, h⟩ := bind_ok_inv h
    simp only [Except.ok.injEq] at h
    subst h
    obtain ⟨hp, hM, hO, hcap, hee⟩ := encryptChunk_ok_inv he
    unfold MAX_CHUNKS_PER_VIDEO at hcap
    have hiv : e.iv.length = 12 := by rw [hee]; exact hn i
    have htag : e.tag.length = 16 := by rw [hee]; exact A.tag_length _ _ _ _
    have hidx : e.index < 4294967296 := by rw [hee]; simpa using by omega
    have hct : 1 ≤ e.ciphertext.length := by
      rw [hee]
      show 1 ≤ (A.aead_seal vk (nonces i) (specAAD O i) c).1.length
      rw [A.ct_length]
      exact List.length_pos.mpr hp
    have hdec : decryptChunk A e vk O = .ok c := by
      rw [hee]
      exact decryptChunk_of_sealed A vk O i (nonces i) c hM hO (by omega)
    simp only [List.map_cons]
    simp only [decryptWrites, List.nil_append,
      deserLegacy_single e hiv htag hidx hct, decryptStream, hdec,
      ih (i + 1) es' hes]
    show Except.ok ((c ++ []) ++ cs.flatten) = Except.ok ((c :: cs).flatten)
    simp

/-- C1: for every byte sequence `B` with `|B| ≤ 4·F`, valid master key
and object id, decrypting the serialized frames produced by
`encryptBuffer` with `decryptBuffer` (same key and id) returns exactly
`B`; stated conditionally on the encryption call succeeding, which the
validations inside the pipeline already force for valid inputs. -/
theorem encryptBuffer_decryptBuffer_roundtrip (A : Aead)
    (nonces : Nat → List Nat) (B M : List Nat) (O : String) (F : Nat)
    (out : List (List Nat)) (hn : ∀ j, (nonces j).length = 12)
    (hF : 0 < F) (_hB : B.length ≤ 4 * F)
    (henc : encryptBuffer A nonces B M O F = .ok out) :
    decryptBuffer A out M O = .ok B := by
  unfold encryptBuffer at henc
  obtain ⟨vk, hvk, henc⟩ := bind_ok_inv henc
  obtain ⟨es, hes, henc⟩ := bind_ok_inv henc
  simp only [Except.ok.injEq] at henc
  subst henc
  unfold decryptBuffer
  rw [hvk]
  show decryptWrites A vk O (es.map EncryptedChunk.toBuffer) [] = .ok B
  rw [decryptWrites_roundtrip hn 0 (encryptSlices F B) es hes,
    encryptSlices_flatten F hF B]

set_option maxRecDepth 1000000 in
theorem encryptBuffer_decryptBuffer_roundtrip_witness :
    (∀ j, (sampleNonces j).length = 12) ∧ 0 < 1024 ∧
    ([1, 2, 3] : List Nat).length ≤ 4 * 1024 ∧
    encryptBuffer plainAead sampleNonces [1, 2, 3] sampleMasterKey
        "video-1" 1024 =
      .ok [(⟨0, List.replicate 12 7, List.replicate 16 0, [1, 2, 3]⟩ :
             EncryptedChunk).toBuffer] ∧
    decryptBuffer plainAead
        [(⟨0, List.replicate 12 7, List.replicate 16 0, [1, 2, 3]⟩ :
           EncryptedChunk).toBuffer] sampleMasterKey "video-1" =
      .ok [1, 2, 3] :=
  ⟨fun _ => rfl, by decide, by decide, by decide,
    encryptBuffer_decryptBuffer_roundtrip plainAead sampleNonces [1, 2, 3]
      sampleMasterKey "video-1" 1024 _ (fun _ => rfl) (by decide) (by decide)
      (by decide)⟩

/-! ## C8 — the length-prefixed envelope parser validates nothing -/

theorem envelopeLoop_nil (fuel : Nat) :
    envelopeLoop fuel [] = .ok ([], []) := by
  cases fuel <;> simp [envelopeLoop]

/-- C8 counterexample: an input whose first four bytes encode the body
length 32 — below the 33-byte floor the claim says is enforced — is
parsed without any `MalformedEnvelope` error: the parser emits the
32-byte body as a frame with empty ciphertext. -/
theorem parseEnvelope_accepts_bodyLen_32 :
    parseEnvelope (uint32be 32 ++ List.replicate 32 0) =
      .ok [⟨0, List.replicate 12 0, List.replicate 16 0, []⟩] := by decide

/-- C8 (amended): the length-prefixed parser performs no validation of
the prospective body length.  For any `body_len = L` (any 32-bit value,
with no lower floor at 33 and no upper cap) followed by a complete
`L`-byte body, the parser simply deserializes the body — succeeding
whenever `L ≥ 32`, and failing only inside frame deserialization (a
short-frame error, not a malformed-envelope check) when `L < 32`; and
when fewer than `L` body bytes are present the parser stalls waiting
for more data, raising the unprocessed-bytes error only at end of
input. -/
theorem parseEnvelope_no_length_validation (L : Nat) (body : List Nat)
    (hL : L < 4294967296) (hbody : body.length = L) :
    parseEnvelope (uint32be L ++ body) =
      (EncryptedChunk.fromBuffer body).map (fun c => [c]) ∧
    (∀ short : List Nat, short.length < L →
      parseEnvelope (uint32be L ++ short) =
        .error (.unprocessed (4 + short.length))) := by
  constructor
  · unfold parseEnvelope
    have hlen : (uint32be L ++ body).length = 4 + L := by
      simp [uint32be_length, hbody]
    obtain ⟨k, hk⟩ : ∃ k, (uint32be L ++ body).length = k + 1 :=
      ⟨(uint32be L ++ body).length - 1, by omega⟩
    rw [hk]
    simp only [envelopeLoop]
    rw [if_pos (by omega), readUInt32BE_uint32be L body hL]
    rw [if_neg (by omega)]
    have hdrop4 : (uint32be L ++ body).drop 4 = body := by
      have h := List.drop_left (uint32be L) body
      rwa [uint32be_length] at h
    have htake : ((uint32be L ++ body).drop 4).take L = body := by
      rw [hdrop4, ← hbody, List.take_length]
    have hdropAll : (uint32be L ++ body).drop (4 + L) = [] :=
      List.drop_eq_nil_of_le (by omega)
    rw [htake, hdropAll]
    cases hfb : EncryptedChunk.fromBuffer body with
    | error e => rfl
    | ok c =>
      rw [envelopeLoop_nil]
      rfl
  · intro short hshort
    unfold parseEnvelope
    have hlen : (uint32be L ++ short).length = 4 + short.length := by
      simp [uint32be_length]
    obtain ⟨k, hk⟩ : ∃ k, (uint32be L ++ short).length = k + 1 :=
      ⟨(uint32be L ++ short).length - 1, by omega⟩
    rw [hk]
    simp only [envelopeLoop]
    rw [if_pos (by omega), readUInt32BE_uint32be L short hL]
    rw [if_pos (by omega)]
    show (if (uint32be L ++ short) = ([] : List Nat) then
        Except.ok ([] : List EncryptedChunk)
      else Except.error (JsError.unprocessed (uint32be L ++ short).length)) =
      Except.error (JsError.unprocessed (4 + short.length))
    rw [if_neg (by simp [uint32be]), hlen]

theorem parseEnvelope_no_length_validation_witness :
    (32 < 4294967296 ∧ (List.replicate 32 (0 : Nat)).length = 32) ∧
    (parseEnvelope (uint32be 32 ++ List.replicate 32 0) =
       (EncryptedChunk.fromBuffer (List.replicate 32 0)).map (fun c => [c]) ∧
     parseEnvelope (uint32be 32 ++ ([] : List Nat)) =
       .error (.unprocessed (4 + ([] : List Nat).length))) :=
  ⟨⟨by decide, by decide⟩,
    (parseEnvelope_no_length_validation 32 (List.replicate 32 0) (by decide)
        (by decide)).1,
    (parseEnvelope_no_length_validation 32 (List.replicate 32 0) (by decide)
        (by decide)).2 [] (by decide)⟩

theorem frame_serialization_roundtrip_witness :
    ((List.replicate 12 7 : List Nat).length = 12 ∧
     (List.replicate 16 9 : List Nat).length = 16 ∧ 5 < 4294967296) ∧
    ((⟨5, List.replicate 12 7, List.replicate 16 9, [1, 2, 3]⟩ :
        EncryptedChunk).toBuffer =
      uint32be 5 ++ List.replicate 12 7 ++ List.replicate 16 9 ++ [1, 2, 3] ∧
     (⟨5, List.replicate 12 7, List.replicate 16 9, [1, 2, 3]⟩ :
        EncryptedChunk).toBuffer.length = 32 + 3 ∧
     EncryptedChunk.fromBuffer
        (⟨5, List.replicate 12 7, List.replicate 16 9, [1, 2, 3]⟩ :
          EncryptedChunk).toBuffer =
      .ok ⟨5, List.replicate 12 7, List.replicate 16 9, [1, 2, 3]⟩) :=
  ⟨⟨by decide, by decide, by decide⟩,
    frame_serialization_roundtrip _ (by decide) (by decide) (by decide)⟩

end KeyringVcm
